import Mathlib

/-
Verification development for the STM32F4xx USART driver
(src/src/fs_stm32f4xxusart.c).

The driver keeps one master byte array (masterBuffer) from which every
transmit and receive ring buffer is carved.  A ring buffer is described by
the USARTBuffer record: base offset into the master buffer, length, head
(next byte to pop), tail (next byte to push), fillLevel (explicit count of
queued bytes) and highWater (historical maximum of fillLevel).  All of these
fields are uint16_t in the C source; we model them as Nat, which agrees with
the C arithmetic as long as values stay below 2^16 (they do under the buffer
invariants, since every offset is bounded by the master buffer length, itself
a uint16_t quantity).  The one place the C code can underflow a uint16_t
subtraction (the expression i - 1 in the line readers) is modelled explicitly
with u16sub.

Mutex acquisition (xSemaphoreTake with a bounded timeout) is modelled by a
Bool argument guardOk: true means the acquisition succeeded, false means it
timed out.  bufferPush is modelled only for a successful acquisition because
the C function spins forever (while(true);) when the take fails, so no
post-state exists for that case.
-/

namespace FSUSART

/-- Byte values are modelled as natural numbers; the C code only ever
compares them for equality, so no modular arithmetic on byte values is
needed. -/
abbrev Byte := Nat

/-- The line terminator byte, the character constant of value 10 used by
readLine, readLineTruncate and writeLine in the source. -/
def lineTerminator : Byte := 10

/-- Subtraction as computed by the C code on uint16_t operands (the result
reduced modulo 2^16), used where the source can underflow. -/
def u16sub (a b : Nat) : Nat := (a + (65536 - b % 65536)) % 65536

/-- Mirror of the USARTBuffer struct of the source: all buffer metadata.
The mutex handle is not part of the record; acquisition outcomes are passed
to each operation as a Bool. -/
structure USARTBuffer where
  base : Nat
  length : Nat
  head : Nat
  tail : Nat
  fillLevel : Nat
  highWater : Nat
deriving Repr, DecidableEq

/-- A buffer together with the master byte array it lives in.  The C
masterBuffer is a global char array indexed by absolute offsets; we model it
as a total function from offsets to bytes so that the out-of-range accesses
the source can perform (see the scan loops) are still well defined. -/
structure St where
  buf : USARTBuffer
  master : Nat → Byte

/-- Mirror of a C memcpy writing the list src at destination offset d of a
byte array. -/
def memcpy (m : Nat → Byte) (d : Nat) (src : List Byte) : Nat → Byte :=
  match src with
  | [] => m
  | x :: xs => memcpy (Function.update m d x) (d + 1) xs

/-- Read n consecutive bytes starting at offset start, the source side of a
C memcpy out of the master buffer. -/
def readBlock (m : Nat → Byte) (start n : Nat) : List Byte :=
  (List.range n).map fun i => m (start + i)

/-- Mirror of bufferInit: head and tail start at base, fillLevel and
highWater at zero.  (The C function also takes base from the master buffer
allocation cursor; here base and length are parameters.) -/
def initSt (base length : Nat) (m : Nat → Byte) : St :=
  { buf := { base := base, length := length, head := base, tail := base,
             fillLevel := 0, highWater := 0 }
    master := m }

/-- Mirror of bufferPush (source lines 1559-1600) for a successful mutex
acquisition: write at tail, advance tail with wraparound, increment
fillLevel unless the buffer is already full, update highWater.  On a failed
acquisition the C function loops forever, so only the successful path is
modelled. -/
def bufferPush (s : St) (data : Byte) : St :=
  let b := s.buf
  let m' := Function.update s.master b.tail data
  let tail' := if b.base + b.length = b.tail + 1 then b.base else b.tail + 1
  let fill' := if b.fillLevel = b.length then b.fillLevel else b.fillLevel + 1
  let hw' := if b.highWater < fill' then fill' else b.highWater
  { buf := { b with tail := tail', fillLevel := fill', highWater := hw' }
    master := m' }

/-- Mirror of bufferPop (source lines 1602-1643): if data is available, read
at head, advance head with wraparound, decrement fillLevel; otherwise (or on
mutex timeout) report failure. -/
def bufferPop (guardOk : Bool) (s : St) : Option Byte × St :=
  if guardOk then
    let b := s.buf
    if b.fillLevel ≠ 0 then
      let data := s.master b.head
      let head' := if b.base + b.length = b.head + 1 then b.base else b.head + 1
      (some data, { s with buf := { b with head := head', fillLevel := b.fillLevel - 1 } })
    else (none, s)
  else (none, s)

/-- Mirror of bufferPeek (source lines 1517-1557), including its suspect
bounds check (it rejects when fillLevel exceeds depth) and its address
computation (which adds base on top of the absolute head offset).  0xFF is
the error sentinel. -/
def bufferPeek (guardOk : Bool) (s : St) (depth : Nat) : Byte :=
  if guardOk then
    let b := s.buf
    if b.fillLevel > depth then 255
    else
      let bytesAfterHeadBeforeEnd := b.base + b.length - b.head
      if bytesAfterHeadBeforeEnd ≥ depth then s.master (b.base + b.head + depth)
      else s.master (b.base + depth - bytesAfterHeadBeforeEnd)
  else 255

/-- Mirror of writeBytes (source lines 1050-1138), acting on the transmit
buffer of a channel: reject wholesale if the request exceeds the total
buffer length; otherwise copy in one block if the bytes fit between tail
and the physical end of the region, else in two blocks with a wrap to base;
then clamp fillLevel at length and update highWater.  The return value is
the number of bytes accepted.  The hardware interrupt enable performed at
the end of the C function is outside the buffer model. -/
def writeBytes (guardOk : Bool) (s : St) (bytes : List Byte) : Nat × St :=
  let numBytes := bytes.length
  if numBytes > s.buf.length then (0, s)
  else if guardOk then
    let b := s.buf
    let spaceAfterTail := b.base + b.length - b.tail
    let m' :=
      if spaceAfterTail ≥ numBytes then memcpy s.master b.tail bytes
      else memcpy (memcpy s.master b.tail (bytes.take spaceAfterTail))
                  b.base (bytes.drop spaceAfterTail)
    let tail' :=
      if spaceAfterTail ≥ numBytes then
        if numBytes = spaceAfterTail then b.base else b.tail + numBytes
      else b.base + (numBytes - spaceAfterTail)
    let fill' := if b.fillLevel + numBytes ≤ b.length then b.fillLevel + numBytes else b.length
    let hw' := if b.highWater < fill' then fill' else b.highWater
    (numBytes,
     { buf := { b with tail := tail', fillLevel := fill', highWater := hw' }
       master := m' })
  else (0, s)

/-- Mirror of readBytes (source lines 1186-1253), acting on the receive
buffer of a channel: read min(fillLevel, numBytes) bytes from head in one or
two blocks, advance head with wraparound and decrement fillLevel.  The
result carries the count, the bytes copied to the caller, and the new
state. -/
def readBytes (guardOk : Bool) (s : St) (numBytes : Nat) : Nat × List Byte × St :=
  if guardOk then
    let b := s.buf
    let bytesToRead := if b.fillLevel ≥ numBytes then numBytes else b.fillLevel
    let bufferAfterHead := b.base + b.length - b.head
    let out :=
      if bytesToRead ≤ bufferAfterHead then readBlock s.master b.head bytesToRead
      else readBlock s.master b.head bufferAfterHead ++
           readBlock s.master b.base (bytesToRead - bufferAfterHead)
    let head' :=
      if bytesToRead ≤ bufferAfterHead then
        if bytesToRead = bufferAfterHead then b.base else b.head + bytesToRead
      else b.base + (bytesToRead - bufferAfterHead)
    (bytesToRead, out,
     { s with buf := { b with head := head', fillLevel := b.fillLevel - bytesToRead } })
  else (0, [], s)

/-- Mirror of the scan loop shared by readLine and readLineTruncate: walk
forward from head for at most fillLevel bytes looking for the line
terminator.  Returns (found, i, bufPtr) where i is the loop counter at exit
and bufPtr the offset of the terminator when found.  Note the wrap test of
the source compares bufPtr against base + length before advancing, so the
scan visits the out-of-range offset base + length before wrapping to
base. -/
def scanLine (m : Nat → Byte) (base length bufPtr i fuel : Nat) : Bool × Nat × Nat :=
  match fuel with
  | 0 => (false, i, bufPtr)
  | fuel + 1 =>
    if m bufPtr = lineTerminator then (true, i, bufPtr)
    else
      let bufPtr' := if bufPtr = base + length then base else bufPtr + 1
      scanLine m base length bufPtr' (i + 1) fuel

/-- Mirror of readLine (source lines 1255-1346), acting on the receive
buffer: scan for a terminator; if found, copy i - 1 bytes (uint16
arithmetic) into the destination in one or two blocks, write a null at
destination index i - 1 and return i - 1.  The buffer state (head, tail,
fillLevel) is returned exactly as the source leaves it.  The result is
(returned count, destination array, buffer state). -/
def readLine (guardOk : Bool) (s : St) (dst : Nat → Byte) :
    Nat × (Nat → Byte) × St :=
  if guardOk then
    let b := s.buf
    if b.fillLevel ≠ 0 then
      let r := scanLine s.master b.base b.length b.head 0 b.fillLevel
      let found := r.1
      let i := r.2.1
      let bufPtr := r.2.2
      if found then
        let dst' :=
          if bufPtr > b.head then
            memcpy dst 0 (readBlock s.master b.head (u16sub i 1))
          else if bufPtr < b.head then
            let bytesToReadAfterHead := b.base + b.length - b.head
            memcpy (memcpy dst 0 (readBlock s.master b.head bytesToReadAfterHead))
                   bytesToReadAfterHead
                   (readBlock s.master b.base (u16sub (u16sub i 1) bytesToReadAfterHead))
          else dst
        let dst'' := Function.update dst' (u16sub i 1) 0
        (u16sub i 1, dst'', s)
      else (0, dst, s)
    else (0, dst, s)
  else (0, dst, s)

/-- Mirror of readLineTruncate (source lines 1348-1448): same as readLine
except that when the located line is longer than maxLen the counter i is
reduced to maxLen + 1 before the copy (bufPtr is left where the terminator
was found).  As in the source, the buffer state is returned unchanged. -/
def readLineTruncate (guardOk : Bool) (s : St) (dst : Nat → Byte) (maxLen : Nat) :
    Nat × (Nat → Byte) × St :=
  if guardOk then
    let b := s.buf
    if b.fillLevel ≠ 0 then
      let r := scanLine s.master b.base b.length b.head 0 b.fillLevel
      let found := r.1
      let i0 := r.2.1
      let bufPtr := r.2.2
      if found then
        let i := if 0 < i0 ∧ maxLen < i0 - 1 then maxLen + 1 else i0
        let dst' :=
          if bufPtr > b.head then
            memcpy dst 0 (readBlock s.master b.head (u16sub i 1))
          else if bufPtr < b.head then
            let bytesToReadAfterHead := b.base + b.length - b.head
            memcpy (memcpy dst 0 (readBlock s.master b.head bytesToReadAfterHead))
                   bytesToReadAfterHead
                   (readBlock s.master b.base (u16sub (u16sub i 1) bytesToReadAfterHead))
          else dst
        let dst'' := Function.update dst' (u16sub i 1) 0
        (u16sub i 1, dst'', s)
      else (0, dst, s)
    else (0, dst, s)
  else (0, dst, s)

/-- Mirror of writeLine (source lines 1140-1168), acting on the transmit
buffer: reject if the string length exceeds the total buffer length;
otherwise hand all but the final character to writeBytes and, if writeBytes
reports a nonzero count, push a single line terminator and return the full
length.  The input C string is modelled as the list of its characters
(without the null terminator), so strlen is the list length.  The source
passes length - 1 to writeBytes; for the empty string that expression
underflows size_t, a case the public contract excludes, and the model uses
truncating Nat subtraction there. -/
def writeLine (guardOk : Bool) (s : St) (line : List Byte) : Nat × St :=
  let length := line.length
  if length > s.buf.length then (0, s)
  else
    let w := writeBytes guardOk s (line.take (length - 1))
    if w.1 ≠ 0 then
      (length, bufferPush w.2 lineTerminator)
    else (0, w.2)

/-- Mirror of the per-channel redirection shims (for example
usart1_writeLine): delegate only when the channel is enabled, otherwise
return zero without touching anything. -/
def usartWriteLine (enabled guardOk : Bool) (s : St) (line : List Byte) : Nat × St :=
  if enabled then writeLine guardOk s line else (0, s)

/-- Mutex ownership state of the two buffers of one channel, for the model
of rxBytesAvailable. -/
structure LockState where
  rxMutexHeld : Bool
  txMutexHeld : Bool
deriving Repr, DecidableEq

/-- Mirror of rxBytesAvailable (source lines 1170-1184): take the receive
buffer mutex; on success read the receive fillLevel and then give the
transmit buffer mutex (exactly what the source does: the give names
txBuffer.mutex while the take named rxBuffer.mutex).  The result is the
returned count and the mutex ownership state after the call. -/
def rxBytesAvailable (rxGuardOk : Bool) (locks : LockState) (rxFillLevel : Nat) :
    Nat × LockState :=
  if rxGuardOk then
    (rxFillLevel, { locks with rxMutexHeld := true, txMutexHeld := false })
  else (0, locks)

/-- One application-visible buffer operation, for reasoning about operation
sequences.  Pop, write and read carry the outcome of their mutex
acquisition; push is modelled only for a successful acquisition (the C
function never returns otherwise). -/
inductive BufOp where
  | push (data : Byte)
  | pop (guardOk : Bool)
  | write (bytes : List Byte) (guardOk : Bool)
  | read (numBytes : Nat) (guardOk : Bool)

/-- The state transition of a single operation (return values projected
away). -/
def stepOp (s : St) : BufOp → St
  | .push d => bufferPush s d
  | .pop g => (bufferPop g s).2
  | .write xs g => (writeBytes g s xs).2
  | .read n g => (readBytes g s n).2.2

/-- Run a sequence of operations from a state. -/
def runOps (s : St) : List BufOp → St
  | [] => s
  | op :: ops => runOps (stepOp s op) ops

/-- Number of bytes the operation reports as accepted into the buffer:
one for every completed push, the return value of writeBytes for a write,
zero for the consuming operations. -/
def acceptedOf (s : St) : BufOp → Nat
  | .push _ => 1
  | .pop _ => 0
  | .write xs g => (writeBytes g s xs).1
  | .read _ _ => 0

/-- Number of bytes the operation removes from the buffer: one for a pop
that returns a byte, the return value of readBytes for a read, zero for the
producing operations. -/
def removedOf (s : St) : BufOp → Nat
  | .push _ => 0
  | .pop g => if (bufferPop g s).1.isSome then 1 else 0
  | .write _ _ => 0
  | .read n g => (readBytes g s n).1

/-- Total bytes accepted along a run. -/
def totalAccepted (s : St) : List BufOp → Nat
  | [] => 0
  | op :: ops => acceptedOf s op + totalAccepted (stepOp s op) ops

/-- Total bytes removed along a run. -/
def totalRemoved (s : St) : List BufOp → Nat
  | [] => 0
  | op :: ops => removedOf s op + totalRemoved (stepOp s op) ops

/-- Maximum fillLevel observed at any point of a run (the initial state
included). -/
def maxFill (s : St) : List BufOp → Nat
  | [] => s.buf.fillLevel
  | op :: ops => max s.buf.fillLevel (maxFill (stepOp s op) ops)

/-- The structural buffer invariant stated in the specification: positive
length, fillLevel within capacity, head and tail inside the region. -/
def Inv (s : St) : Prop :=
  0 < s.buf.length ∧ s.buf.fillLevel ≤ s.buf.length ∧
  s.buf.base ≤ s.buf.head ∧ s.buf.head < s.buf.base + s.buf.length ∧
  s.buf.base ≤ s.buf.tail ∧ s.buf.tail < s.buf.base + s.buf.length

instance (s : St) : Decidable (Inv s) := by unfold Inv; infer_instance

/-- The producer pointer relation maintained by every non-overflowing
operation: tail sits fillLevel positions (with wraparound) ahead of head. -/
def tailRel (s : St) : Prop :=
  s.buf.tail = s.buf.base + ((s.buf.head - s.buf.base) + s.buf.fillLevel) % s.buf.length

instance (s : St) : Decidable (tailRel s) := by unfold tailRel; infer_instance

/-- The logical content of the buffer: the fillLevel bytes starting at head,
in pop order, with wraparound. -/
def queueOf (s : St) : List Byte :=
  (List.range s.buf.fillLevel).map fun i =>
    s.master (s.buf.base + ((s.buf.head - s.buf.base) + i) % s.buf.length)

/-! Concrete states used to evaluate the model on the specific inputs of the
analysis. -/

/-- Receive buffer holding the bytes 65 66 (AB), the line terminator, then
67 68 (CD). -/
def c1State : St :=
  { buf := { base := 0, length := 8, head := 0, tail := 5, fillLevel := 5, highWater := 5 }
    master := fun i => [65, 66, 10, 67, 68, 0, 0, 0].getD i 0 }

/-- Receive buffer holding only the bytes 67 68 (CD), no terminator. -/
def c1StateB : St :=
  { buf := { base := 0, length := 8, head := 0, tail := 2, fillLevel := 2, highWater := 2 }
    master := fun i => [67, 68, 0, 0, 0, 0, 0, 0].getD i 0 }

/-- Receive buffer holding the bytes 65 66 67 68 69 (ABCDE) followed by the
line terminator. -/
def c2State : St :=
  { buf := { base := 0, length := 8, head := 0, tail := 6, fillLevel := 6, highWater := 6 }
    master := fun i => [65, 66, 67, 68, 69, 10, 0, 0].getD i 0 }

/-- Length-two buffer after pushing the three bytes 97, 98, 99 from empty. -/
def c3Run : St :=
  bufferPush (bufferPush (bufferPush (initSt 0 2 (fun _ => 0)) 97) 98) 99

/-- A full length-two buffer holding 97 (oldest, at head) then 98. -/
def c3FullState : St :=
  { buf := { base := 0, length := 2, head := 0, tail := 0, fillLevel := 2, highWater := 2 }
    master := fun i => [97, 98].getD i 0 }

/-- Buffer with exactly one unread byte, the value 65, at head. -/
def c5State : St :=
  { buf := { base := 0, length := 4, head := 0, tail := 1, fillLevel := 1, highWater := 1 }
    master := fun i => [65, 0, 0, 0].getD i 0 }

/-- Empty transmit buffer of length four. -/
def c6State : St := initSt 0 4 (fun _ => 0)

/-- Empty length-two buffer for the fill-formula counterexample. -/
def c7Init : St := initSt 0 2 (fun _ => 0)

/-- Three pushes followed by two successful pops. -/
def c7Ops : List BufOp :=
  [BufOp.push 97, BufOp.push 98, BufOp.push 99, BufOp.pop true, BufOp.pop true]

/-- Empty length-seven buffer with head and tail parked at offset five, so
that the next five-byte write wraps across the physical end of the region. -/
def c8Wrapped : St :=
  { buf := { base := 0, length := 7, head := 5, tail := 5, fillLevel := 0, highWater := 0 }
    master := fun _ => 0 }

/-- Empty length-seven buffer with head and tail at base: the same five-byte
write does not wrap. -/
def c8Fresh : St := initSt 0 7 (fun _ => 0)

/-! Helper lemmas about modular index arithmetic and block copies. -/

theorem addModMod (a b L : Nat) : (a % L + b) % L = (a + b) % L := by
  conv_rhs => rw [Nat.add_mod]
  rw [Nat.add_mod (a % L) b, Nat.mod_mod_of_dvd a dvd_rfl]

theorem modTwoRegions (a L : Nat) (_hL : 0 < L) (h : a < 2 * L) :
    a % L = if a < L then a else a - L := by
  by_cases h1 : a < L
  · rw [if_pos h1, Nat.mod_eq_of_lt h1]
  · rw [if_neg h1, Nat.mod_eq_sub_mod (by omega), Nat.mod_eq_of_lt (by omega)]

theorem posNe {L h fill n i j : Nat} (hfit : fill + n ≤ L)
    (hi : i < fill) (hj : j < n) : (h + i) % L ≠ (h + fill + j) % L := by
  intro heq
  have h1 : i % L = (fill + j) % L :=
    Nat.ModEq.add_left_cancel' h (by rwa [← Nat.add_assoc] : h + i ≡ h + (fill + j) [MOD L])
  rw [Nat.mod_eq_of_lt (by omega), Nat.mod_eq_of_lt (by omega)] at h1
  omega

theorem memcpy_apply (xs : List Byte) (m : Nat → Byte) (d p : Nat) :
    memcpy m d xs p = if d ≤ p ∧ p < d + xs.length then xs.getD (p - d) 0 else m p := by
  induction xs generalizing m d with
  | nil =>
    show m p = _
    rw [if_neg (by simp only [List.length_nil]; omega)]
  | cons x xs ih =>
    show memcpy (Function.update m d x) (d + 1) xs p = _
    rw [ih, Function.update_apply]
    by_cases hpd : p = d
    · subst hpd
      have h1 : ¬ (p + 1 ≤ p ∧ p < p + 1 + xs.length) := by omega
      have h2 : p ≤ p ∧ p < p + (x :: xs).length := by
        simp only [List.length_cons]; omega
      rw [if_neg h1, if_pos rfl, if_pos h2, Nat.sub_self, List.getD_cons_zero]
    · by_cases hin : d + 1 ≤ p ∧ p < d + 1 + xs.length
      · have h2 : d ≤ p ∧ p < d + (x :: xs).length := by
          simp only [List.length_cons]; omega
        rw [if_pos hin, if_pos h2]
        obtain ⟨k, hk⟩ : ∃ k, p - d = k + 1 := ⟨p - d - 1, by omega⟩
        rw [hk, List.getD_cons_succ]
        congr 1
        omega
      · have h2 : ¬ (d ≤ p ∧ p < d + (x :: xs).length) := by
          simp only [List.length_cons]; omega
        rw [if_neg hin, if_neg h2, if_neg hpd]

theorem readBlock_length (m : Nat → Byte) (start n : Nat) :
    (readBlock m start n).length = n := by
  simp [readBlock]

theorem readBlock_getD (m : Nat → Byte) (start n i : Nat) (h : i < n) :
    (readBlock m start n).getD i 0 = m (start + i) := by
  rw [List.getD_eq_getElem _ _ (by rw [readBlock_length]; exact h)]
  simp [readBlock]

theorem queueOf_length (s : St) : (queueOf s).length = s.buf.fillLevel := by
  simp [queueOf]

theorem writeBytes_queue (s : St) (xs : List Byte) (hInv : Inv s) (hRel : tailRel s)
    (hFit : s.buf.fillLevel + xs.length ≤ s.buf.length) :
    (writeBytes true s xs).1 = xs.length ∧
    (writeBytes true s xs).2.buf.base = s.buf.base ∧
    (writeBytes true s xs).2.buf.length = s.buf.length ∧
    (writeBytes true s xs).2.buf.head = s.buf.head ∧
    (writeBytes true s xs).2.buf.fillLevel = s.buf.fillLevel + xs.length ∧
    Inv (writeBytes true s xs).2 ∧ tailRel (writeBytes true s xs).2 ∧
    queueOf (writeBytes true s xs).2 = queueOf s ++ xs := by
  obtain ⟨hL, hfl, hh1, hh2, ht1, ht2⟩ := hInv
  have hnotgt : ¬ xs.length > s.buf.length := by omega
  simp only [writeBytes]
  have htmod : (s.buf.head - s.buf.base + s.buf.fillLevel) % s.buf.length < s.buf.length :=
    Nat.mod_lt _ hL
  rw [if_neg hnotgt, if_pos trivial, hRel]
  have hsp : s.buf.base + s.buf.length -
        (s.buf.base + (s.buf.head - s.buf.base + s.buf.fillLevel) % s.buf.length)
      = s.buf.length - (s.buf.head - s.buf.base + s.buf.fillLevel) % s.buf.length := by omega
  rw [hsp]
  set t := (s.buf.head - s.buf.base + s.buf.fillLevel) % s.buf.length with htdef
  by_cases hA : s.buf.length - t ≥ xs.length
  · rw [if_pos hA, if_pos hA, if_pos hFit]
    have htail' : (if xs.length = s.buf.length - t then s.buf.base
        else s.buf.base + t + xs.length) = s.buf.base + (t + xs.length) % s.buf.length := by
      by_cases hAe : xs.length = s.buf.length - t
      · rw [if_pos hAe, show t + xs.length = s.buf.length from by omega, Nat.mod_self,
          Nat.add_zero]
      · rw [if_neg hAe, Nat.mod_eq_of_lt (show t + xs.length < s.buf.length from by omega),
          Nat.add_assoc]
    rw [htail']
    refine ⟨rfl, rfl, rfl, rfl, rfl, ?_, ?_, ?_⟩
    · exact ⟨hL, by dsimp only; omega, hh1, hh2, by dsimp only; omega,
        by dsimp only; have := Nat.mod_lt (t + xs.length) hL; omega⟩
    · show s.buf.base + (t + xs.length) % s.buf.length = _
      dsimp only
      rw [htdef, addModMod]
      congr 2
      omega
    · apply List.ext_getElem
      · simp [queueOf_length, queueOf]
      · intro i hi1 hi2
        have hilen : i < s.buf.fillLevel + xs.length := by
          simpa [queueOf_length] using hi1
        by_cases hifl : i < s.buf.fillLevel
        · rw [List.getElem_append_left (by rw [queueOf_length]; exact hifl)]
          simp only [queueOf, List.getElem_map, List.getElem_range]
          rw [memcpy_apply, if_neg ?_]
          rintro ⟨hc1, hc2⟩
          set u := (s.buf.head - s.buf.base + i) % s.buf.length with hu
          have hult : u < s.buf.length := Nat.mod_lt _ hL
          have hw1 : u - t < xs.length := by omega
          have heq : u = (s.buf.head - s.buf.base + s.buf.fillLevel + (u - t))
              % s.buf.length := by
            rw [← addModMod (s.buf.head - s.buf.base + s.buf.fillLevel) (u - t), ← htdef,
              show t + (u - t) = u from by omega, Nat.mod_eq_of_lt hult]
          exact posNe hFit hifl hw1 heq
        · obtain ⟨j, hj⟩ : ∃ j, i = s.buf.fillLevel + j :=
            ⟨i - s.buf.fillLevel, by omega⟩
          subst hj
          have hjn : j < xs.length := by omega
          rw [List.getElem_append_right (by rw [queueOf_length]; omega)]
          simp only [queueOf_length, Nat.add_sub_cancel_left]
          simp only [queueOf, List.getElem_map, List.getElem_range]
          rw [memcpy_apply]
          have hup : (s.buf.head - s.buf.base + (s.buf.fillLevel + j)) % s.buf.length
              = t + j := by
            rw [← Nat.add_assoc, ← addModMod (s.buf.head - s.buf.base + s.buf.fillLevel) j,
              ← htdef, Nat.mod_eq_of_lt (by omega)]
          rw [hup, if_pos (by constructor <;> omega),
            show s.buf.base + (t + j) - (s.buf.base + t) = j from by omega]
          exact List.getD_eq_getElem xs 0 hjn
  · rw [if_neg hA, if_neg hA, if_pos hFit]
    have hnL2 : xs.length ≤ s.buf.length := by omega
    have htail' : s.buf.base + (xs.length - (s.buf.length - t))
        = s.buf.base + (t + xs.length) % s.buf.length := by
      rw [modTwoRegions _ _ hL (by omega), if_neg (by omega)]
      congr 1
      omega
    rw [htail']
    refine ⟨rfl, rfl, rfl, rfl, rfl, ?_, ?_, ?_⟩
    · exact ⟨hL, by dsimp only; omega, hh1, hh2, by dsimp only; omega,
        by dsimp only; have := Nat.mod_lt (t + xs.length) hL; omega⟩
    · show s.buf.base + (t + xs.length) % s.buf.length = _
      dsimp only
      rw [htdef, addModMod]
      congr 2
      omega
    · apply List.ext_getElem
      · simp [queueOf_length, queueOf]
      · intro i hi1 hi2
        have hilen : i < s.buf.fillLevel + xs.length := by
          simpa [queueOf_length] using hi1
        by_cases hifl : i < s.buf.fillLevel
        · rw [List.getElem_append_left (by rw [queueOf_length]; exact hifl)]
          simp only [queueOf, List.getElem_map, List.getElem_range]
          rw [memcpy_apply, memcpy_apply, if_neg ?_, if_neg ?_]
          · rintro ⟨hc1, hc2⟩
            rw [List.length_take] at hc2
            set u := (s.buf.head - s.buf.base + i) % s.buf.length with hu
            have hult : u < s.buf.length := Nat.mod_lt _ hL
            have htu : t ≤ u := by omega
            have hw1 : u - t < xs.length := by omega
            have heq : u = (s.buf.head - s.buf.base + s.buf.fillLevel + (u - t))
                % s.buf.length := by
              rw [← addModMod (s.buf.head - s.buf.base + s.buf.fillLevel) (u - t), ← htdef,
                show t + (u - t) = u from by omega, Nat.mod_eq_of_lt hult]
            exact posNe hFit hifl hw1 heq
          · rintro ⟨hc1, hc2⟩
            rw [List.length_drop] at hc2
            set u := (s.buf.head - s.buf.base + i) % s.buf.length with hu
            have hult : u < s.buf.length := Nat.mod_lt _ hL
            have hw1 : u + (s.buf.length - t) < xs.length := by omega
            have heq : u = (s.buf.head - s.buf.base + s.buf.fillLevel +
                (u + (s.buf.length - t))) % s.buf.length := by
              rw [← addModMod (s.buf.head - s.buf.base + s.buf.fillLevel) _, ← htdef,
                show t + (u + (s.buf.length - t)) = u + s.buf.length from by omega,
                Nat.add_mod_right, Nat.mod_eq_of_lt hult]
            exact posNe hFit hifl hw1 heq
        · obtain ⟨j, hj⟩ : ∃ j, i = s.buf.fillLevel + j :=
            ⟨i - s.buf.fillLevel, by omega⟩
          subst hj
          have hjn : j < xs.length := by omega
          rw [List.getElem_append_right (by rw [queueOf_length]; omega)]
          simp only [queueOf_length, Nat.add_sub_cancel_left]
          simp only [queueOf, List.getElem_map, List.getElem_range]
          rw [memcpy_apply, memcpy_apply]
          have hup : (s.buf.head - s.buf.base + (s.buf.fillLevel + j)) % s.buf.length
              = (t + j) % s.buf.length := by
            rw [← Nat.add_assoc, ← addModMod (s.buf.head - s.buf.base + s.buf.fillLevel) j,
              ← htdef]
          rw [hup]
          by_cases hjsp : j < s.buf.length - t
          · rw [Nat.mod_eq_of_lt (by omega), if_neg ?_, if_pos ?_]
            · rw [show s.buf.base + (t + j) - (s.buf.base + t) = j from by omega,
                List.getD_eq_getElem _ _ (by rw [List.length_take]; omega),
                List.getElem_take]
            · refine ⟨by omega, ?_⟩
              rw [List.length_take]
              omega
            · rintro ⟨hc1, hc2⟩
              rw [List.length_drop] at hc2
              omega
          · have humod : (t + j) % s.buf.length = j - (s.buf.length - t) := by
              rw [modTwoRegions _ _ hL (by omega), if_neg (by omega)]
              omega
            rw [humod, if_pos ?_]
            · rw [show s.buf.base + (j - (s.buf.length - t)) - s.buf.base
                  = j - (s.buf.length - t) from by omega,
                List.getD_eq_getElem _ _ (by rw [List.length_drop]; omega),
                List.getElem_drop]
              congr 1
              omega
            · refine ⟨by omega, ?_⟩
              rw [List.length_drop]
              omega

theorem readBytes_spec (s : St) (k : Nat) (hInv : Inv s) (hRel : tailRel s) :
    (readBytes true s k).1 = min s.buf.fillLevel k ∧
    (readBytes true s k).2.1 = (queueOf s).take k ∧
    (readBytes true s k).2.2.buf.base = s.buf.base ∧
    (readBytes true s k).2.2.buf.length = s.buf.length ∧
    (readBytes true s k).2.2.buf.tail = s.buf.tail ∧
    (readBytes true s k).2.2.buf.fillLevel = s.buf.fillLevel - k ∧
    Inv (readBytes true s k).2.2 ∧ tailRel (readBytes true s k).2.2 ∧
    queueOf (readBytes true s k).2.2 = (queueOf s).drop k := by
  obtain ⟨hL, hfl, hh1, hh2, ht1, ht2⟩ := hInv
  simp only [readBytes]
  rw [if_pos trivial]
  have hbtr : (if s.buf.fillLevel ≥ k then k else s.buf.fillLevel)
      = min s.buf.fillLevel k := by
    split_ifs with h <;> omega
  rw [hbtr]
  have hbah : s.buf.base + s.buf.length - s.buf.head
      = s.buf.length - (s.buf.head - s.buf.base) := by omega
  rw [hbah]
  set m := min s.buf.fillLevel k with hm
  have hmfl : m ≤ s.buf.fillLevel := by omega
  have hmk : m ≤ k := by omega
  by_cases hA : m ≤ s.buf.length - (s.buf.head - s.buf.base)
  · rw [if_pos hA, if_pos hA]
    have hhead' : (if m = s.buf.length - (s.buf.head - s.buf.base) then s.buf.base
        else s.buf.head + m)
        = s.buf.base + ((s.buf.head - s.buf.base) + m) % s.buf.length := by
      by_cases hAe : m = s.buf.length - (s.buf.head - s.buf.base)
      · rw [if_pos hAe, show s.buf.head - s.buf.base + m = s.buf.length from by omega,
          Nat.mod_self, Nat.add_zero]
      · rw [if_neg hAe, Nat.mod_eq_of_lt (by omega)]
        omega
    rw [hhead']
    refine ⟨rfl, ?_, rfl, rfl, rfl, by dsimp only; omega, ?_, ?_, ?_⟩
    · apply List.ext_getElem
      · rw [readBlock_length, List.length_take, queueOf_length]
        omega
      · intro i hi1 hi2
        have him : i < m := by rwa [readBlock_length] at hi1
        rw [List.getElem_take]
        simp only [readBlock, queueOf, List.getElem_map, List.getElem_range]
        congr 1
        rw [Nat.mod_eq_of_lt (by omega)]
        omega
    · exact ⟨hL, by dsimp only; omega, by dsimp only; omega,
        by dsimp only; have := Nat.mod_lt (s.buf.head - s.buf.base + m) hL; omega,
        ht1, ht2⟩
    · show s.buf.tail = _
      dsimp only
      rw [Nat.add_sub_cancel_left, addModMod, hRel]
      congr 2
      omega
    · apply List.ext_getElem
      · rw [queueOf_length, List.length_drop, queueOf_length]
        dsimp only
        omega
      · intro i hi1 hi2
        have hik : i < s.buf.fillLevel - k := by
          simpa [queueOf_length, List.length_drop] using hi2
        have hmk2 : m = k := by omega
        rw [List.getElem_drop]
        simp only [queueOf, List.getElem_map, List.getElem_range]
        congr 1
        rw [Nat.add_sub_cancel_left, addModMod]
        congr 2
        omega
  · rw [if_neg hA, if_neg hA]
    have hhead' : s.buf.base + (m - (s.buf.length - (s.buf.head - s.buf.base)))
        = s.buf.base + ((s.buf.head - s.buf.base) + m) % s.buf.length := by
      rw [modTwoRegions _ _ hL (by omega), if_neg (by omega)]
      congr 1
      omega
    rw [hhead']
    refine ⟨rfl, ?_, rfl, rfl, rfl, by dsimp only; omega, ?_, ?_, ?_⟩
    · apply List.ext_getElem
      · rw [List.length_append, readBlock_length, readBlock_length, List.length_take,
          queueOf_length]
        omega
      · intro i hi1 hi2
        have him : i < m := by
          rw [List.length_append, readBlock_length, readBlock_length] at hi1
          omega
        rw [List.getElem_take]
        by_cases hi3 : i < s.buf.length - (s.buf.head - s.buf.base)
        · rw [List.getElem_append_left (by rw [readBlock_length]; exact hi3)]
          simp only [readBlock, queueOf, List.getElem_map, List.getElem_range]
          congr 1
          rw [Nat.mod_eq_of_lt (by omega)]
          omega
        · rw [List.getElem_append_right (by rw [readBlock_length]; omega)]
          simp only [readBlock_length]
          simp only [readBlock, queueOf, List.getElem_map, List.getElem_range]
          congr 1
          rw [modTwoRegions _ _ hL (by omega), if_neg (by omega)]
          omega
    · exact ⟨hL, by dsimp only; omega, by dsimp only; omega,
        by dsimp only; have := Nat.mod_lt (s.buf.head - s.buf.base + m) hL; omega,
        ht1, ht2⟩
    · show s.buf.tail = _
      dsimp only
      rw [Nat.add_sub_cancel_left, addModMod, hRel]
      congr 2
      omega
    · apply List.ext_getElem
      · rw [queueOf_length, List.length_drop, queueOf_length]
        dsimp only
        omega
      · intro i hi1 hi2
        have hik : i < s.buf.fillLevel - k := by
          simpa [queueOf_length, List.length_drop] using hi2
        have hmk2 : m = k := by omega
        rw [List.getElem_drop]
        simp only [queueOf, List.getElem_map, List.getElem_range]
        congr 1
        rw [Nat.add_sub_cancel_left, addModMod]
        congr 2
        omega

theorem bufferPush_notfull (s : St) (x : Byte) (hInv : Inv s) (hRel : tailRel s)
    (hNF : s.buf.fillLevel < s.buf.length) :
    (bufferPush s x).buf.base = s.buf.base ∧
    (bufferPush s x).buf.length = s.buf.length ∧
    (bufferPush s x).buf.head = s.buf.head ∧
    (bufferPush s x).buf.fillLevel = s.buf.fillLevel + 1 ∧
    Inv (bufferPush s x) ∧ tailRel (bufferPush s x) ∧
    queueOf (bufferPush s x) = queueOf s ++ [x] := by
  obtain ⟨hL, hfl, hh1, hh2, ht1, ht2⟩ := hInv
  have htmod : (s.buf.head - s.buf.base + s.buf.fillLevel) % s.buf.length < s.buf.length :=
    Nat.mod_lt _ hL
  simp only [bufferPush]
  rw [hRel, if_neg (show ¬ s.buf.fillLevel = s.buf.length from by omega)]
  set t := (s.buf.head - s.buf.base + s.buf.fillLevel) % s.buf.length with htdef
  have htail' : (if s.buf.base + s.buf.length = s.buf.base + t + 1 then s.buf.base
      else s.buf.base + t + 1) = s.buf.base + (t + 1) % s.buf.length := by
    by_cases hAe : s.buf.base + s.buf.length = s.buf.base + t + 1
    · rw [if_pos hAe, show t + 1 = s.buf.length from by omega, Nat.mod_self, Nat.add_zero]
    · rw [if_neg hAe, Nat.mod_eq_of_lt (by omega), Nat.add_assoc]
  rw [htail']
  refine ⟨by trivial, by trivial, by trivial, by trivial, ?_, ?_, ?_⟩
  · exact ⟨hL, by dsimp only; omega, hh1, hh2, by dsimp only; omega,
      by dsimp only; have := Nat.mod_lt (t + 1) hL; omega⟩
  · show s.buf.base + (t + 1) % s.buf.length = _
    dsimp only
    rw [htdef, addModMod]
    congr 2
  · apply List.ext_getElem
    · simp [queueOf_length, queueOf]
    · intro i hi1 hi2
      have hilen : i < s.buf.fillLevel + 1 := by simpa [queueOf_length] using hi1
      by_cases hifl : i < s.buf.fillLevel
      · rw [List.getElem_append_left (by rw [queueOf_length]; exact hifl)]
        simp only [queueOf, List.getElem_map, List.getElem_range]
        rw [List.getElem_range]
        rw [Function.update_apply, if_neg ?_]
        intro hc
        have heq : (s.buf.head - s.buf.base + i) % s.buf.length
            = (s.buf.head - s.buf.base + s.buf.fillLevel + 0) % s.buf.length := by
          rw [Nat.add_zero, ← htdef]
          omega
        exact posNe (show s.buf.fillLevel + 1 ≤ s.buf.length from by omega) hifl
          (by omega) heq
      · have hieq : i = s.buf.fillLevel := by omega
        subst hieq
        rw [List.getElem_append_right (by rw [queueOf_length])]
        simp only [queueOf_length, Nat.sub_self]
        simp only [queueOf, List.getElem_map, List.getElem_range]
        rw [List.getElem_range]
        rw [Function.update_apply, if_pos ?_]
        · simp
        · rw [← htdef]

/-- C3 (amended): a push on a full buffer leaves fillLevel equal to the
length and overwrites the byte at head, which is the oldest unread byte,
without advancing head: the logical queue becomes the pushed byte followed
by the previous content minus its first byte.  Consequently after pushing
L + 1 bytes into an empty buffer of length L, the first pop returns the
newest byte (input index L), not input index 1 as the original claim
states. -/
theorem bufferPush_full (s : St) (x : Byte) (hInv : Inv s) (hRel : tailRel s)
    (hF : s.buf.fillLevel = s.buf.length) :
    (bufferPush s x).buf.fillLevel = s.buf.length ∧
    queueOf (bufferPush s x) = x :: (queueOf s).drop 1 := by
  obtain ⟨hL, hfl, hh1, hh2, ht1, ht2⟩ := hInv
  have hOfflt : s.buf.head - s.buf.base < s.buf.length := by omega
  have htailhead : s.buf.tail = s.buf.head := by
    rw [hRel, hF, Nat.add_mod_right, Nat.mod_eq_of_lt hOfflt]
    omega
  simp only [bufferPush]
  rw [htailhead, if_pos hF]
  refine ⟨?_, ?_⟩
  · exact hF
  · apply List.ext_getElem
    · simp only [queueOf_length, List.length_cons, List.length_drop]
      omega
    · intro i hi1 hi2
      have hifl : i < s.buf.fillLevel := by simpa [queueOf_length] using hi1
      rcases Nat.eq_zero_or_pos i with hi0 | hip
      · subst hi0
        rw [List.getElem_cons_zero]
        simp only [queueOf, List.getElem_map, List.getElem_range]
        rw [List.getElem_range]
        rw [Nat.add_zero, Nat.mod_eq_of_lt hOfflt, Function.update_apply,
          if_pos (by omega)]
      · obtain ⟨i', rfl⟩ : ∃ i', i = i' + 1 := ⟨i - 1, by omega⟩
        rw [List.getElem_cons_succ, List.getElem_drop]
        simp only [queueOf, List.getElem_map, List.getElem_range]
        rw [List.getElem_range]
        rw [Function.update_apply, if_neg ?_]
        · rw [Nat.add_comm 1 i']
        · rw [modTwoRegions _ _ hL (by omega)]
          split_ifs <;> omega

theorem stepOp_fill (s : St) (op : BufOp) (hInv : Inv s) :
    (stepOp s op).buf.fillLevel
      = min (s.buf.fillLevel + acceptedOf s op) s.buf.length - removedOf s op ∧
    Inv (stepOp s op) := by
  obtain ⟨hL, hfl, hh1, hh2, ht1, ht2⟩ := hInv
  unfold Inv
  cases op with
  | push d =>
    simp only [stepOp, bufferPush, acceptedOf, removedOf]
    split_ifs <;> exact ⟨by omega, hL, by omega, hh1, hh2, by omega, by omega⟩
  | pop g =>
    simp only [stepOp, bufferPop, acceptedOf, removedOf]
    cases g
    · rw [if_neg Bool.false_ne_true]
      dsimp only
      refine ⟨?_, hL, by omega, hh1, hh2, ht1, ht2⟩
      simp
      omega
    · by_cases hf : s.buf.fillLevel ≠ 0
      · rw [if_pos rfl, if_pos hf]
        dsimp only
        exact ⟨by simp; omega, hL, by omega, by split_ifs <;> omega,
          by split_ifs <;> omega, ht1, ht2⟩
      · rw [if_pos rfl, if_neg hf]
        dsimp only
        exact ⟨by simp; omega, hL, by omega, hh1, hh2, ht1, ht2⟩
  | write xs g =>
    simp only [stepOp, writeBytes, acceptedOf, removedOf]
    by_cases hn : xs.length > s.buf.length
    · rw [if_pos hn]
      dsimp only
      exact ⟨by omega, hL, by omega, hh1, hh2, ht1, ht2⟩
    · rw [if_neg hn]
      cases g
      · rw [if_neg Bool.false_ne_true]
        dsimp only
        refine ⟨?_, hL, by omega, hh1, hh2, ht1, ht2⟩
        simp
        omega
      · rw [if_pos rfl]
        dsimp only
        refine ⟨by split_ifs <;> omega, hL, by split_ifs <;> omega, hh1, hh2,
          by split_ifs <;> omega, by split_ifs <;> omega⟩
  | read n g =>
    simp only [stepOp, readBytes, acceptedOf, removedOf]
    cases g
    · rw [if_neg Bool.false_ne_true]
      dsimp only
      refine ⟨?_, hL, by omega, hh1, hh2, ht1, ht2⟩
      simp
      omega
    · rw [if_pos rfl]
      dsimp only
      refine ⟨by split_ifs <;> omega, hL, by split_ifs <;> omega,
        by split_ifs <;> omega, by split_ifs <;> omega, ht1, ht2⟩


theorem runOps_Inv (ops : List BufOp) (s : St) (hInv : Inv s) :
    Inv (runOps s ops) := by
  induction ops generalizing s with
  | nil => exact hInv
  | cons op ops ih => exact ih _ (stepOp_fill s op hInv).2

theorem stepOp_highWater (s : St) (op : BufOp)
    (h : s.buf.fillLevel ≤ s.buf.highWater) :
    (stepOp s op).buf.highWater
      = max s.buf.highWater (stepOp s op).buf.fillLevel ∧
    (stepOp s op).buf.fillLevel ≤ (stepOp s op).buf.highWater := by
  cases op with
  | push d =>
    simp only [stepOp, bufferPush]
    constructor <;> split_ifs <;> omega
  | pop g =>
    simp only [stepOp, bufferPop]
    cases g
    · rw [if_neg Bool.false_ne_true]
      dsimp only
      omega
    · rw [if_pos rfl]
      split_ifs <;> dsimp only <;> omega
  | write xs g =>
    simp only [stepOp, writeBytes]
    by_cases hn : xs.length > s.buf.length
    · rw [if_pos hn]
      dsimp only
      omega
    · rw [if_neg hn]
      cases g
      · rw [if_neg Bool.false_ne_true]
        dsimp only
        omega
      · rw [if_pos rfl]
        dsimp only
        constructor <;> split_ifs <;> omega
  | read n g =>
    simp only [stepOp, readBytes]
    cases g
    · rw [if_neg Bool.false_ne_true]
      dsimp only
      omega
    · rw [if_pos rfl]
      dsimp only
      omega

theorem stepOp_highWater_mono (s : St) (op : BufOp) :
    s.buf.highWater ≤ (stepOp s op).buf.highWater := by
  cases op with
  | push d =>
    simp only [stepOp, bufferPush]
    split_ifs <;> omega
  | pop g =>
    simp only [stepOp, bufferPop]
    cases g
    · rw [if_neg Bool.false_ne_true]
    · rw [if_pos rfl]
      split_ifs <;> dsimp only <;> omega
  | write xs g =>
    simp only [stepOp, writeBytes]
    by_cases hn : xs.length > s.buf.length
    · rw [if_pos hn]
    · rw [if_neg hn]
      cases g
      · rw [if_neg Bool.false_ne_true]
      · rw [if_pos rfl]
        dsimp only
        split_ifs <;> omega
  | read n g =>
    simp only [stepOp, readBytes]
    cases g
    · rw [if_neg Bool.false_ne_true]
    · rw [if_pos rfl]

theorem fill_le_maxFill (s : St) (ops : List BufOp) :
    s.buf.fillLevel ≤ maxFill s ops := by
  cases ops with
  | nil => exact Nat.le_refl _
  | cons op ops => exact le_max_left _ _

theorem runOps_highWater (ops : List BufOp) (s : St)
    (h : s.buf.fillLevel ≤ s.buf.highWater) :
    (runOps s ops).buf.highWater = max s.buf.highWater (maxFill s ops) := by
  induction ops generalizing s with
  | nil =>
    show s.buf.highWater = max s.buf.highWater s.buf.fillLevel
    omega
  | cons op ops ih =>
    obtain ⟨he, hf2⟩ := stepOp_highWater s op h
    show (runOps (stepOp s op) ops).buf.highWater
      = max s.buf.highWater (max s.buf.fillLevel (maxFill (stepOp s op) ops))
    rw [ih (stepOp s op) hf2, he]
    have h1 := fill_le_maxFill (stepOp s op) ops
    omega

/-! Claim theorems. -/

/-- C1: evaluation of readLine at the failing input.  On a receive buffer
holding the bytes AB, terminator, CD (with the guard acquirable), readLine
returns 1, copies only the byte A followed by a null into the destination,
and leaves head, tail and fillLevel exactly as they were (nothing is
consumed); on a buffer whose fill holds no terminator it returns 0 and leaves
the buffer untouched.  The claim instead requires a return of 2, the bytes
AB, and consumption of the three scanned bytes. -/
theorem readLine_c1_eval :
    (readLine true c1State (fun _ => 111)).1 = 1 ∧
    (readLine true c1State (fun _ => 111)).2.1 0 = 65 ∧
    (readLine true c1State (fun _ => 111)).2.1 1 = 0 ∧
    (readLine true c1State (fun _ => 111)).2.2.buf = c1State.buf ∧
    (readLine true c1StateB (fun _ => 111)).1 = 0 ∧
    (readLine true c1StateB (fun _ => 111)).2.2.buf = c1StateB.buf := by
  refine ⟨?_, ?_, ?_, ?_, ?_, ?_⟩ <;> decide

/-- C2: evaluation of readLineTruncate at the failing input.  On a receive
buffer holding ABCDE plus terminator with maxLen 1 (guard acquirable), the
function returns 1 and copies the byte A plus a null, as the claim states,
but it consumes nothing: fillLevel stays 6 and head is unchanged, where the
claim requires all six input bytes consumed (fillLevel 0). -/
theorem readLineTruncate_c2_eval :
    (readLineTruncate true c2State (fun _ => 111) 1).1 = 1 ∧
    (readLineTruncate true c2State (fun _ => 111) 1).2.1 0 = 65 ∧
    (readLineTruncate true c2State (fun _ => 111) 1).2.1 1 = 0 ∧
    (readLineTruncate true c2State (fun _ => 111) 1).2.2.buf = c2State.buf := by
  refine ⟨?_, ?_, ?_, ?_⟩ <;> decide

/-- C3 counterexample: push the three bytes 97, 98, 99 into an initially empty
buffer of length two.  The first pop returns byte 99 (input index 2, the
newest byte), not byte 98 (input index 1) as the claim states; the second pop
returns 98. -/
theorem bufferPush_full_order_counterexample :
    (bufferPop true c3Run).1 = some 99 ∧ ¬ (bufferPop true c3Run).1 = some 98 ∧
    (bufferPop true (bufferPop true c3Run).2).1 = some 98 := by
  refine ⟨?_, ?_, ?_⟩ <;> decide

/-- C3 witness: the amended push-on-full behaviour at a concrete full buffer
of length two holding 97 then 98: pushing 99 keeps fillLevel at the length
and the queue becomes 99 followed by 98. -/
theorem bufferPush_full_witness :
    (Inv c3FullState ∧ tailRel c3FullState ∧
      c3FullState.buf.fillLevel = c3FullState.buf.length) ∧
    ((bufferPush c3FullState 99).buf.fillLevel = c3FullState.buf.length ∧
      queueOf (bufferPush c3FullState 99) = 99 :: (queueOf c3FullState).drop 1) :=
  ⟨⟨by decide, by decide, by decide⟩,
    bufferPush_full c3FullState 99 (by decide) (by decide) (by decide)⟩

/-- C4: writeBytes rejects wholesale.  Whenever the requested byte count
exceeds the total buffer length, the call returns 0 and the whole state,
head, tail and fillLevel included, is returned unchanged. -/
theorem writeBytes_rejects_oversized (g : Bool) (s : St) (xs : List Byte)
    (h : xs.length > s.buf.length) :
    writeBytes g s xs = (0, s) := by
  simp only [writeBytes]
  rw [if_pos h]

/-- C4 witness: a three-byte request against a length-two buffer. -/
theorem writeBytes_rejects_oversized_witness :
    ([1, 2, 3] : List Byte).length > (initSt 0 2 (fun _ => 0)).buf.length ∧
    writeBytes true (initSt 0 2 (fun _ => 0)) [1, 2, 3] = (0, initSt 0 2 (fun _ => 0)) :=
  ⟨by decide, writeBytes_rejects_oversized true (initSt 0 2 (fun _ => 0)) [1, 2, 3] (by decide)⟩

/-- C5: evaluation of bufferPeek at the failing input.  On a buffer whose
fill range contains exactly one byte (the value 65 at head), a peek at depth
0, inside the fill range and with the guard acquirable, returns the error
sentinel 255 instead of the byte 65: the bounds check of the source rejects
precisely when fillLevel exceeds depth, the opposite of the claimed
behaviour. -/
theorem bufferPeek_c5_eval :
    bufferPeek true c5State 0 = 255 ∧ c5State.master c5State.buf.head = 65 := by
  constructor <;> decide

/-- C6 counterexample: writeLine on an enabled channel with the single
character 88 (k = 1, within the length-four transmit buffer, guard
acquirable) returns 0 and pushes nothing, not even the terminator: the
zero-byte writeBytes result is treated as failure.  The claim requires one
terminator byte pushed (fillLevel 1). -/
theorem writeLine_single_char_counterexample :
    (usartWriteLine true true c6State [88]).1 = 0 ∧
    (usartWriteLine true true c6State [88]).2.buf.fillLevel = 0 := by
  constructor <;> decide

/-- C6 (amended): writeLine on an enabled channel rejects, unchanged, any
input longer than the transmit buffer; for inputs of length k at least 2
that fit in the free space, it writes the first k - 1 characters then a
single terminator (returning k), regardless of the final input character;
and for k = 1 it returns 0 and writes nothing at all. -/
theorem writeLine_spec :
    (∀ (g : Bool) (s : St) (line : List Byte), line.length > s.buf.length →
      usartWriteLine true g s line = (0, s)) ∧
    (∀ (s : St) (line : List Byte), Inv s → tailRel s → 2 ≤ line.length →
      s.buf.fillLevel + line.length ≤ s.buf.length →
      (usartWriteLine true true s line).1 = line.length ∧
      queueOf (usartWriteLine true true s line).2
        = queueOf s ++ (line.take (line.length - 1) ++ [lineTerminator])) ∧
    (∀ (s : St) (line : List Byte), Inv s → tailRel s → line.length = 1 →
      (usartWriteLine true true s line).1 = 0 ∧
      queueOf (usartWriteLine true true s line).2 = queueOf s ∧
      (usartWriteLine true true s line).2.buf.fillLevel = s.buf.fillLevel) := by
  refine ⟨?_, ?_, ?_⟩
  · intro g s line h
    show writeLine g s line = (0, s)
    simp only [writeLine]
    rw [if_pos h]
  · intro s line hInv hRel h2 hFit
    have hIc := hInv
    obtain ⟨hL, hfl, hh1, hh2, ht1, ht2⟩ := hIc
    have hkL : ¬ line.length > s.buf.length := by omega
    have htl : (line.take (line.length - 1)).length = line.length - 1 := by
      rw [List.length_take]
      omega
    obtain ⟨hw1, hwb, hwL, hwh, hwf, hwInv, hwRel, hwq⟩ :=
      writeBytes_queue s (line.take (line.length - 1)) hInv hRel (by rw [htl]; omega)
    show (writeLine true s line).1 = line.length ∧
      queueOf (writeLine true s line).2
        = queueOf s ++ (line.take (line.length - 1) ++ [lineTerminator])
    simp only [writeLine]
    rw [if_neg hkL, if_pos (by rw [hw1, htl]; omega)]
    refine ⟨rfl, ?_⟩
    obtain ⟨hpb, hpL, hph, hpf, hpInv, hpRel, hpq⟩ :=
      bufferPush_notfull (writeBytes true s (line.take (line.length - 1))).2
        lineTerminator hwInv hwRel (by rw [hwf, hwL, htl]; omega)
    show queueOf (bufferPush _ lineTerminator) = _
    rw [hpq, hwq, List.append_assoc]
  · intro s line hInv hRel h1
    have hIc := hInv
    obtain ⟨hL, hfl, hh1, hh2, ht1, ht2⟩ := hIc
    have hkL : ¬ line.length > s.buf.length := by omega
    have htake : line.take (line.length - 1) = [] := by
      rw [h1]
      exact List.take_zero line
    obtain ⟨hw1, hwb, hwL, hwh, hwf, hwInv, hwRel, hwq⟩ :=
      writeBytes_queue s (line.take (line.length - 1)) hInv hRel
        (by rw [htake]; simp; omega)
    show (writeLine true s line).1 = 0 ∧
      queueOf (writeLine true s line).2 = queueOf s ∧
      (writeLine true s line).2.buf.fillLevel = s.buf.fillLevel
    simp only [writeLine]
    rw [if_neg hkL, if_neg (by rw [hw1, htake]; simp)]
    refine ⟨rfl, ?_, ?_⟩
    · rw [hwq, htake, List.append_nil]
    · rw [hwf, htake]
      simp

/-- C6 witness: the amended writeLine behaviour at the concrete two-character
input 88 89 on an empty enabled channel of buffer length four: it returns 2
and the transmit queue becomes 88 followed by the terminator. -/
theorem writeLine_spec_witness :
    (Inv c6State ∧ tailRel c6State ∧ 2 ≤ ([88, 89] : List Byte).length ∧
      c6State.buf.fillLevel + ([88, 89] : List Byte).length ≤ c6State.buf.length) ∧
    ((usartWriteLine true true c6State [88, 89]).1 = ([88, 89] : List Byte).length ∧
      queueOf (usartWriteLine true true c6State [88, 89]).2
        = queueOf c6State ++ (([88, 89] : List Byte).take (([88, 89] : List Byte).length - 1)
            ++ [lineTerminator])) :=
  ⟨⟨by decide, by decide, by decide, by decide⟩,
    writeLine_spec.2.1 c6State [88, 89] (by decide) (by decide) (by decide) (by decide)⟩

/-- C7 counterexample: on a length-two buffer, three pushes followed by two
successful pops leave fillLevel 0, while the claimed global formula, accepted
pushes minus performed pops clamped to the buffer length, gives 1. -/
theorem fill_clamp_formula_counterexample :
    totalAccepted c7Init c7Ops = 3 ∧ totalRemoved c7Init c7Ops = 2 ∧
    min (totalAccepted c7Init c7Ops - totalRemoved c7Init c7Ops) 2 = 1 ∧
    (runOps c7Init c7Ops).buf.fillLevel = 0 ∧
    ¬ (runOps c7Init c7Ops).buf.fillLevel
        = min (totalAccepted c7Init c7Ops - totalRemoved c7Init c7Ops) 2 := by
  refine ⟨?_, ?_, ?_, ?_, ?_⟩ <;> decide

/-- C7 (amended): for every operation sequence from the initialised state of a
buffer of positive length, fillLevel stays within zero and the length, and
head and tail stay inside the region; and across every single operation from
an invariant-satisfying state, fillLevel moves to the previous fillLevel plus
the bytes the operation accepted, clamped to the length, minus the bytes it
removed - the clamp applies per operation, not once to the global totals. -/
theorem runOps_invariant (base length : Nat) (m0 : Nat → Byte) (hLen : 0 < length) :
    (∀ ops : List BufOp, Inv (runOps (initSt base length m0) ops)) ∧
    (∀ (s : St) (op : BufOp), Inv s →
      (stepOp s op).buf.fillLevel
        = min (s.buf.fillLevel + acceptedOf s op) s.buf.length - removedOf s op) := by
  constructor
  · intro ops
    exact runOps_Inv ops _
      ⟨hLen, Nat.zero_le _, Nat.le_refl _, by dsimp only [initSt]; omega,
        Nat.le_refl _, by dsimp only [initSt]; omega⟩
  · intro s op h
    exact (stepOp_fill s op h).1

/-- C7 witness: the invariant after a short concrete run on a length-two
buffer. -/
theorem runOps_invariant_witness :
    0 < 2 ∧ Inv (runOps (initSt 0 2 (fun _ => 0)) [BufOp.push 97, BufOp.pop true]) :=
  ⟨by decide,
    (runOps_invariant 0 2 (fun _ => 0) (by decide)).1 [BufOp.push 97, BufOp.pop true]⟩

/-- C8: a writeBytes whose copy wraps across the physical end of the region
preserves logical byte order exactly as a non-wrapping write does: for any
two valid buffers of the same length holding the same logical content (with
room for the new bytes), writing the same byte list to both and then reading
everything back returns the same byte sequence, namely the old content
followed by the written bytes in input order. -/
theorem wrap_write_read_order (s1 s2 : St) (xs : List Byte)
    (h1 : Inv s1) (r1 : tailRel s1) (h2 : Inv s2) (r2 : tailRel s2)
    (hlen : s1.buf.length = s2.buf.length)
    (hq : queueOf s1 = queueOf s2)
    (hfit : s1.buf.fillLevel + xs.length ≤ s1.buf.length) :
    (readBytes true (writeBytes true s1 xs).2 (s1.buf.fillLevel + xs.length)).2.1
      = (readBytes true (writeBytes true s2 xs).2 (s2.buf.fillLevel + xs.length)).2.1 ∧
    (readBytes true (writeBytes true s1 xs).2 (s1.buf.fillLevel + xs.length)).2.1
      = queueOf s1 ++ xs := by
  have hfl12 : s1.buf.fillLevel = s2.buf.fillLevel := by
    have hlq := congrArg List.length hq
    rwa [queueOf_length, queueOf_length] at hlq
  obtain ⟨w11, wb1, wL1, wh1, wf1, wInv1, wRel1, wq1⟩ := writeBytes_queue s1 xs h1 r1 hfit
  obtain ⟨w21, wb2, wL2, wh2, wf2, wInv2, wRel2, wq2⟩ :=
    writeBytes_queue s2 xs h2 r2 (by omega)
  obtain ⟨rc1, rout1, _, _, _, _, _, _, _⟩ :=
    readBytes_spec (writeBytes true s1 xs).2 (s1.buf.fillLevel + xs.length) wInv1 wRel1
  obtain ⟨rc2, rout2, _, _, _, _, _, _, _⟩ :=
    readBytes_spec (writeBytes true s2 xs).2 (s2.buf.fillLevel + xs.length) wInv2 wRel2
  have htake1 : (queueOf (writeBytes true s1 xs).2).take (s1.buf.fillLevel + xs.length)
      = queueOf s1 ++ xs := by
    rw [wq1]
    apply List.take_of_length_le
    rw [List.length_append, queueOf_length]
  have htake2 : (queueOf (writeBytes true s2 xs).2).take (s2.buf.fillLevel + xs.length)
      = queueOf s2 ++ xs := by
    rw [wq2]
    apply List.take_of_length_le
    rw [List.length_append, queueOf_length]
  refine ⟨?_, ?_⟩
  · rw [rout1, rout2, htake1, htake2, hq]
  · rw [rout1, htake1]

/-- C8 witness: a concrete wrapping write against a concrete non-wrapping
write.  Both buffers are empty and of length seven; in one of them head and
tail sit at offset five, so the five-byte write 1 2 3 4 5 wraps across the
end of the region; reading back yields the same sequence for both. -/
theorem wrap_write_read_order_witness :
    (Inv c8Wrapped ∧ tailRel c8Wrapped ∧ Inv c8Fresh ∧ tailRel c8Fresh ∧
      c8Wrapped.buf.length = c8Fresh.buf.length ∧
      queueOf c8Wrapped = queueOf c8Fresh ∧
      c8Wrapped.buf.fillLevel + ([1, 2, 3, 4, 5] : List Byte).length
        ≤ c8Wrapped.buf.length) ∧
    ((readBytes true (writeBytes true c8Wrapped [1, 2, 3, 4, 5]).2
        (c8Wrapped.buf.fillLevel + ([1, 2, 3, 4, 5] : List Byte).length)).2.1
      = (readBytes true (writeBytes true c8Fresh [1, 2, 3, 4, 5]).2
        (c8Fresh.buf.fillLevel + ([1, 2, 3, 4, 5] : List Byte).length)).2.1 ∧
     (readBytes true (writeBytes true c8Wrapped [1, 2, 3, 4, 5]).2
        (c8Wrapped.buf.fillLevel + ([1, 2, 3, 4, 5] : List Byte).length)).2.1
      = queueOf c8Wrapped ++ [1, 2, 3, 4, 5]) :=
  ⟨⟨by decide, by decide, by decide, by decide, by decide, by decide, by decide⟩,
    wrap_write_read_order c8Wrapped c8Fresh [1, 2, 3, 4, 5]
      (by decide) (by decide) (by decide) (by decide) (by decide) (by decide) (by decide)⟩

/-- C9: for every operation sequence from the initialised state, the final
highWater equals the maximum fillLevel observed at any point of the run, and
highWater never decreases across any single operation from any state. -/
theorem highWater_spec (base length : Nat) (m0 : Nat → Byte) :
    (∀ ops : List BufOp,
      (runOps (initSt base length m0) ops).buf.highWater
        = maxFill (initSt base length m0) ops) ∧
    (∀ (s : St) (op : BufOp), s.buf.highWater ≤ (stepOp s op).buf.highWater) := by
  constructor
  · intro ops
    have h := runOps_highWater ops (initSt base length m0) (Nat.le_refl 0)
    rw [h]
    exact Nat.zero_max _
  · exact stepOp_highWater_mono

/-- C10: evaluation of rxBytesAvailable.  With the receive-buffer guard
acquirable, starting from a state where the receive mutex is free and the
transmit mutex is held, the call returns the receive fillLevel but leaves the
receive mutex held and releases the transmit mutex: the source gives
txBuffer.mutex after taking rxBuffer.mutex.  The claim instead requires the
receive guard released and the transmit guard untouched. -/
theorem rxBytesAvailable_c10_eval :
    rxBytesAvailable true { rxMutexHeld := false, txMutexHeld := true } 7
      = (7, { rxMutexHeld := true, txMutexHeld := false }) := by
  decide

end FSUSART
